/-
  Verification of the VAECache embedding-cache pipeline
  (helpers/caching/vae.py) against its natural-language specification.

  The embedding models tensors as integers (one abstract value per item),
  the storage backend as an explicit key/value store plus a directory walk,
  and the external collaborators (autoencoder, image decoding, random
  shuffling, process-group splitting) as oracles.
-/
import Mathlib

namespace VAECacheModel

/-! ### Python path primitives (posixpath semantics, over character lists) -/

/-- Index of the last occurrence of `c` in `l` (Python `str.rfind`): `-1` if absent. -/
def rfindIdx (c : Char) : List Char → Int
  | [] => -1
  | x :: xs =>
    let r := rfindIdx c xs
    if 0 ≤ r then r + 1 else if x = c then 0 else -1

/-- `os.path.basename`: the part of the path after the last slash. -/
def basenameL (l : List Char) : List Char := l.drop ((rfindIdx '/' l + 1).toNat)

/-- `os.path.splitext`: split off the extension at the last dot, provided the
dot lies after the last slash and some non-dot character of the base name
precedes it (so dotfiles such as `.bashrc` have no extension). -/
def splitextL (l : List Char) : List Char × List Char :=
  let si := rfindIdx '/' l
  let di := rfindIdx '.' l
  if si < di then
    if ((l.drop (si + 1).toNat).take (di - si - 1).toNat).any (fun c => c ≠ '.') then
      (l.take di.toNat, l.drop di.toNat)
    else (l, [])
  else (l, [])

def basename (s : String) : String := ⟨basenameL s.data⟩

def splitext (s : String) : String × String :=
  ((⟨(splitextL s.data).1⟩ : String), (⟨(splitextL s.data).2⟩ : String))

/-- `os.path.join` for two components (posixpath). -/
def pathJoin (a b : String) : String :=
  if b.data.head? = some '/' then b
  else if a = "" then a ++ b
  else if a.data.getLast? = some '/' then a ++ b
  else a ++ "/" ++ b

/-- Python `str.endswith` for a single suffix (case-sensitive). -/
def endsWithPy (s suffix : String) : Bool :=
  decide (s.data.reverse.take suffix.data.length = suffix.data.reverse)

/-! ### Glob matching

Modelled from the spec: the Storage Backend's `listFiles(root, globPattern)`
filters file names with fnmatch-style patterns (the backend implementation is
not under src/).  Only the constructs used by the source patterns
(`*.[jJpP][pPnN][gG]` and `*.pt`) are supported: literals, `*`, and
`[...]` character classes. -/
def globMatchFuel : Nat → List Char → List Char → Bool
  | 0, _, _ => false
  | fuel + 1, pattern, s =>
    match pattern, s with
    | [], [] => true
    | [], _ :: _ => false
    | '*' :: ps, [] => globMatchFuel fuel ps []
    | '*' :: ps, c :: cs =>
      globMatchFuel fuel ps (c :: cs) || globMatchFuel fuel ('*' :: ps) cs
    | '[' :: ps, c :: cs =>
      (ps.takeWhile (fun x => x ≠ ']')).contains c &&
        globMatchFuel fuel ((ps.dropWhile (fun x => x ≠ ']')).drop 1) cs
    | '[' :: _, [] => false
    | p :: ps, c :: cs => (p = c) && globMatchFuel fuel ps cs
    | _ :: _, [] => false

/-- Every recursive call of the matcher shrinks `pattern.length + s.length`,
so this fuel always suffices. -/
def globMatch (pattern name : String) : Bool :=
  globMatchFuel (pattern.data.length + name.data.length + 1) pattern.data name.data

/-! ### The persisted cache store

Modelled from the spec: the Storage Backend persists cache entries as a
mapping from full file names to embedding values; a rewrite overwrites the
prior entry at the same key. -/

abbrev Store := List (String × Int)

def storeGet : Store → String → Option Int
  | [], _ => none
  | kv :: rest, k => if kv.1 = k then some kv.2 else storeGet rest k

def storeHas (c : Store) (k : String) : Bool := (storeGet c k).isSome

def storePut : Store → String → Int → Store
  | [], k, v => [(k, v)]
  | kv :: rest, k, v => if kv.1 = k then (k, v) :: rest else kv :: storePut rest k v

def storePutAll (c : Store) (ps : List (String × Int)) : Store :=
  ps.foldl (fun acc p => storePut acc p.1 p.2) c

/-! ### World, oracles and the cache object's fields -/

/-- Observable state of the Storage Backend: the directory walk of the
source root (pairs of subdirectory and file names, mirroring the
`(subdir, _, files)` triples the backend yields), the persisted cache
entries, and the source items deleted so far. -/
structure World where
  sourceWalk : List (String × List String)
  cache : Store
  deleted : List String

/-- `data_backend.delete(filepath)`: removes the source item from the walk
and records the deletion. -/
def worldDelete (w : World) (p : String) : World :=
  { w with
    sourceWalk := w.sourceWalk.map (fun q => (q.1, q.2.filter (fun f => pathJoin q.1 f ≠ p)))
    deleted := w.deleted ++ [p] }

/-- External collaborators (out of scope per the spec, injected as oracles):
the Transform Engine (`vae.encode` + `latent_dist.sample()` folded into one
batched function, one output per input), its configured scaling factor, the
image read/prepare/transform step (`None` models an OSError/RuntimeError),
the in-place random shuffle (always a permutation), and the accelerator's
`split_between_processes` (always a sublist of its input). -/
structure Oracles where
  vaeEncode : List Int → List Int
  vaeEncode_len : ∀ l, (vaeEncode l).length = l.length
  scaling_factor : Int
  decodeItem : String → Option Int
  shuffle : List String → List String
  shuffle_perm : ∀ l, (shuffle l).Perm l
  splitOracle : List String → List String
  splitOracle_sub : ∀ l, splitOracle l ⊆ l

/-- The fields of the `VAECache` object after `__init__`. -/
structure VC where
  cache_dir : String
  resolution : Int
  delete_problematic_images : Bool
  write_batch_size : Nat
  local_unprocessed_files : List String

/-- `data_backend.list_files(pattern, root)`.  Modelled from the spec: the
walk of the source root is the world's `sourceWalk`; cache entries are
written flat under the cache namespace, so the cache directory's walk is the
single group of the entries' base names. -/
def backendListFiles (vc : VC) (w : World) (pattern root : String) :
    List (String × List String) :=
  if root = vc.cache_dir then
    [("", (w.cache.map (fun kv => basename kv.1)).filter (fun f => globMatch pattern f))]
  else
    w.sourceWalk.map (fun p => (p.1, p.2.filter (fun f => globMatch pattern f)))

/-! ### VAECache methods (translated from src/helpers/caching/vae.py) -/

/-- `VAECache._generate_filename` (vae.py lines 33-38): base name of the
filepath with the extension replaced by `.pt`, joined under the cache
directory; returns `(full_filename, base_filename)`. -/
def _generate_filename (vc : VC) (filepath : String) : String × String :=
  let base_filename := (splitext (basename filepath)).1 ++ ".pt"
  let full_filename := pathJoin vc.cache_dir base_filename
  (full_filename, base_filename)

/-- `VAECache.load_from_cache` via `data_backend.torch_load` (only ever
called under an `exists` guard, so the default is never observed). -/
def load_from_cache (w : World) (filename : String) : Int :=
  (storeGet w.cache filename).getD 0

/-- `data_backend.write_batch(full_filenames, batch_latents)`: persists the
zipped pairs, overwriting existing entries at the same key. -/
def writeBatch (w : World) (names : List String) (vals : List Int) : World :=
  { w with cache := storePutAll w.cache (names.zip vals) }

/-- The `all_files` set builder of `VAECache.discover_unprocessed_files`
(vae.py lines 48-55): list files with the image glob, keep those whose name
`endswith` one of `.png`, `.jpg`, `.jpeg` (case-sensitive), and join each
with its subdirectory. -/
def discoverAllFiles (vc : VC) (w : World) (directory : String) : List String :=
  (backendListFiles vc w "*.[jJpP][pPnN][gG]" directory).flatMap
    (fun p =>
      (p.2.filter (fun f =>
        endsWithPy f ".png" || endsWithPy f ".jpg" || endsWithPy f ".jpeg")).map
        (fun f => pathJoin p.1 f))

/-- `VAECache.discover_unprocessed_files` (vae.py lines 46-62): builds
`processed_files` as the set of `_generate_filename` pairs of `all_files`
itself, then keeps the files whose pair is not in that set. -/
def discover_unprocessed_files (vc : VC) (w : World) (directory : String) : List String :=
  let all_files := discoverAllFiles vc w directory
  let processed_files := all_files.map (fun f => _generate_filename vc f)
  all_files.filter (fun f => !(decide (_generate_filename vc f ∈ processed_files)))

/-- Trace of externally visible pipeline effects: Transform Engine
invocations and `write_batch` flushes. -/
inductive Event where
  | transformCall (batch : List Int)
  | flush (names : List String) (vals : List Int)
deriving DecidableEq

/-- The per-file loop of `VAECache.encode_image_batch` (vae.py lines 87-96):
for the `i`-th filepath, generate the cache filename; if the entry exists,
overwrite `latents[i]` with the on-disk value; append the filename and
`latents[i]` (squeeze and device moves are identity on abstract tensors).
Indexing `latents[i]` out of range is Python's `IndexError`, modelled as
`none`. -/
def encodeLoop (vc : VC) (w : World) :
    List String → Nat → List Int → List String → List Int →
    Option (List String × List Int)
  | [], _, _, names, outs => some (names.reverse, outs.reverse)
  | fp :: rest, i, latents, names, outs =>
    if i < latents.length then
      if storeHas w.cache (_generate_filename vc fp).1 then
        encodeLoop vc w rest (i + 1)
          (latents.set i (load_from_cache w (_generate_filename vc fp).1))
          ((_generate_filename vc fp).1 :: names)
          ((latents.set i (load_from_cache w (_generate_filename vc fp).1)).getD i 0 :: outs)
      else
        encodeLoop vc w rest (i + 1) latents
          ((_generate_filename vc fp).1 :: names)
          (latents.getD i 0 :: outs)
    else none

/-- `VAECache.encode_image_batch` (vae.py lines 68-98): stack the pixel
batch (`torch.stack` fails on an empty list), run the VAE once on the whole
batch, rescale by the scaling factor, then run the per-file loop.  Returns
the trace of Transform Engine calls and, unless an exception escapes,
`(full_filenames, latents_list)`. -/
def encode_image_batch (vc : VC) (oc : Oracles) (w : World)
    (pixel_values_batch : List Int) (filepaths : List String) :
    List Event × Option (List String × List Int) :=
  if pixel_values_batch = [] then ([], none)
  else
    ([Event.transformCall pixel_values_batch],
     encodeLoop vc w filepaths 0
       ((oc.vaeEncode pixel_values_batch).map (fun v => v * oc.scaling_factor)) [] [])

/-- `VAECache.encode_image` (vae.py lines 64-66): the batch path with a
batch of one, returning `latents[0]`. -/
def encode_image (vc : VC) (oc : Oracles) (w : World)
    (pixel_values : Int) (filepath : String) : List Event × Option Int :=
  match encode_image_batch vc oc w [pixel_values] [filepath] with
  | (tr, none) => (tr, none)
  | (tr, some (_, latents)) => (tr, latents[0]?)

/-- The `existing_pt_files` set of `VAECache.process_directory` (vae.py
lines 113-122): for each listed cache file, join it with its subdirectory
when that is nonempty, then record the name without its extension. -/
def collectExistingPt (listing : List (String × List String)) : List String :=
  listing.flatMap (fun p =>
    p.2.map (fun f => (splitext (if p.1 = "" then f else pathJoin p.1 f)).1))

/-- The `existing_pt_files` set as computed at the start of
`process_directory` (vae.py lines 113-122). -/
def existingPtOf (vc : VC) (w : World) : List String :=
  collectExistingPt (backendListFiles vc w "*.pt" vc.cache_dir)

/-- The secondary directory scan of `VAECache.process_directory` (vae.py
lines 129-137): every listed image file whose extension-stripped name is not
among the existing `.pt` files is appended to the worklist. -/
def scanAdditions (vc : VC) (w : World) (directory : String) : List String :=
  (backendListFiles vc w "*.[jJpP][pPnN][gG]" directory).flatMap
    (fun p =>
      p.2.filterMap (fun f =>
        if (splitext f).1 ∈ existingPtOf vc w then none
        else some (pathJoin p.1 f)))

/-- The worklist actually iterated by `VAECache.process_directory`: the
object's `local_unprocessed_files` with the secondary-scan additions
appended in place, then shuffled in place. -/
def processFiles (vc : VC) (oc : Oracles) (w : World) (directory : String) : List String :=
  oc.shuffle (vc.local_unprocessed_files ++ scanAdditions vc w directory)

/-- Mutable state of the per-file loop of `process_directory`:
`ok = false` records that an uncaught exception escaped. -/
structure LoopSt where
  world : World
  curPaths : List String
  curPvs : List Int
  trace : List Event
  ok : Bool

/-- One iteration of the `process_directory` loop (vae.py lines 147-176):
skip if the cache entry exists; on decode failure delete the source iff
configured and continue; otherwise accumulate, and flush through
`encode_image_batch` + `write_batch` when the batch reaches
`write_batch_size`. -/
def processStep (vc : VC) (oc : Oracles) (s : LoopSt) (fp : String) : LoopSt :=
  if s.ok then
    if storeHas s.world.cache (_generate_filename vc fp).1 then s
    else
      match oc.decodeItem fp with
      | none =>
        { s with world :=
            if vc.delete_problematic_images then worldDelete s.world fp else s.world }
      | some pv =>
        if (s.curPvs ++ [pv]).length = vc.write_batch_size then
          match encode_image_batch vc oc s.world (s.curPvs ++ [pv]) (s.curPaths ++ [fp]) with
          | (tr, some (names, outs)) =>
            { world := writeBatch s.world names outs
              curPaths := []
              curPvs := []
              trace := s.trace ++ tr ++ [Event.flush names outs]
              ok := true }
          | (tr, none) =>
            { s with trace := s.trace ++ tr, ok := false }
        else
          { s with curPaths := s.curPaths ++ [fp], curPvs := s.curPvs ++ [pv] }
  else s

/-- Result of a `process_directory` call: the effect trace, the final
backend state, the object's fields afterwards, and whether the call
returned normally. -/
structure RunResult where
  trace : List Event
  world : World
  state : VC
  ok : Bool

/-- The trailing partial-batch flush of `VAECache.process_directory`
(vae.py lines 178-183): if anything remains in `batch_pixel_values` (and no
exception has escaped already), call `encode_image_batch` on it — passing
`files_to_process` (the whole worklist), not `current_batch_filepaths`, as
the filepaths, exactly as the source does — and `write_batch` the result. -/
def finishRun (vc : VC) (oc : Oracles) (files : List String) (s1 : LoopSt) : LoopSt :=
  if s1.ok ∧ s1.curPvs ≠ [] then
    match encode_image_batch vc oc s1.world s1.curPvs files with
    | (tr, some (names, outs)) =>
      { s1 with
        world := writeBatch s1.world names outs
        trace := s1.trace ++ tr ++ [Event.flush names outs] }
    | (tr, none) =>
      { s1 with trace := s1.trace ++ tr, ok := false }
  else s1

/-- The whole item loop of `process_directory` over a given worklist. -/
def runLoop (vc : VC) (oc : Oracles) (w : World) (files : List String) : LoopSt :=
  finishRun vc oc files (files.foldl (processStep vc oc) ⟨w, [], [], [], true⟩)

/-- `VAECache.process_directory` (vae.py lines 108-183): build the
worklist (secondary scan appended to the stored partition, shuffled in
place), iterate it, and flush any remaining partial batch. -/
def process_directory (vc : VC) (oc : Oracles) (w : World) (directory : String) :
    RunResult :=
  { trace := (runLoop vc oc w (processFiles vc oc w directory)).trace
    world := (runLoop vc oc w (processFiles vc oc w directory)).world
    state := { vc with local_unprocessed_files := processFiles vc oc w directory }
    ok := (runLoop vc oc w (processFiles vc oc w directory)).ok }

/-- `VAECache.split_cache_between_processes` (vae.py lines 100-106):
discover over the cache directory, split across processes, and store the
slice in `local_unprocessed_files`. -/
def split_cache_between_processes (vc : VC) (oc : Oracles) (w : World) : VC :=
  { vc with
    local_unprocessed_files :=
      oc.splitOracle (discover_unprocessed_files vc w vc.cache_dir) }

/-- One full pipeline run (`runToCompletion` of the spec's exposed surface):
partition assignment followed by `process_directory` over the source root. -/
def runToCompletion (vc : VC) (oc : Oracles) (w : World) (sourceRoot : String) :
    RunResult :=
  process_directory (split_cache_between_processes vc oc w) oc w sourceRoot

/-- Number of Transform Engine invocations in a trace. -/
def countTransform (tr : List Event) : Nat :=
  tr.countP (fun e => match e with | Event.transformCall _ => true | _ => false)

/-- Sizes (key counts) of the `write_batch` flushes in a trace. -/
def flushSizes (tr : List Event) : List Nat :=
  tr.filterMap (fun e => match e with
    | Event.flush names _ => some names.length
    | _ => none)

/-! ### Spec-level cache-key resolver

Following the spec's words for `CacheKeyResolver.resolve` (§4.1): strip the
source file's directory path, strip its extension, append the fixed `.pt`
suffix, and place the result under the cache namespace's root.  These
definitions are deliberately written by direct recursion from the right,
independently of the index arithmetic of the Python `os.path` functions, so
that agreement with `_generate_filename` is a genuine refinement theorem. -/

/-- The part of the path after the last slash, spec-style. -/
def specBasenameL (l : List Char) : List Char :=
  (l.reverse.takeWhile (fun c => c ≠ '/')).reverse

/-- Strip the extension: remove the suffix from the last dot on, unless the
remaining stem would consist of dots only (a dotfile has no extension). -/
def specStripExtL (l : List Char) : List Char :=
  let pre := l.reverse.dropWhile (fun c => c ≠ '.')
  if pre = [] then l
  else if pre.tail.any (fun c => c ≠ '.') then pre.tail.reverse else l

/-- `resolve(identity)` as the spec words it. -/
def specResolve (vc : VC) (identity : String) : String × String :=
  let base : String := (⟨specStripExtL (specBasenameL identity.data)⟩ : String) ++ ".pt"
  (pathJoin vc.cache_dir base, base)

/-! ### Lemmas about the path primitives -/

lemma rfindIdx_of_not_mem {c : Char} {l : List Char} (h : c ∉ l) : rfindIdx c l = -1 := by
  induction l with
  | nil => rfl
  | cons x xs ih =>
    have hx : ¬ x = c := fun hc => h (hc ▸ List.mem_cons_self x xs)
    have hxs : c ∉ xs := fun hc => h (List.mem_cons_of_mem x hc)
    simp [rfindIdx, ih hxs, hx]

lemma rfindIdx_last {c : Char} (a : List Char) {b : List Char} (hb : c ∉ b) :
    rfindIdx c (a ++ c :: b) = (a.length : Int) := by
  induction a with
  | nil => simp [rfindIdx, rfindIdx_of_not_mem hb]
  | cons x a' ih =>
    have : (0 : Int) ≤ (a'.length : Int) := Int.natCast_nonneg _
    simp [rfindIdx, ih, this]

lemma exists_last_of_mem {c : Char} {l : List Char} (h : c ∈ l) :
    ∃ a b, l = a ++ c :: b ∧ c ∉ b := by
  induction l with
  | nil => cases h
  | cons x xs ih =>
    by_cases hm : c ∈ xs
    · obtain ⟨a, b, rfl, hb⟩ := ih hm
      exact ⟨x :: a, b, rfl, hb⟩
    · have hx : x = c := by
        rcases List.mem_cons.mp h with h' | h'
        · exact h'.symm
        · exact absurd h' hm
      exact ⟨[], xs, by simp [hx], hm⟩

lemma takeWhile_of_all {p : α → Bool} {l : List α} (h : ∀ x ∈ l, p x = true) :
    l.takeWhile p = l := by
  induction l with
  | nil => rfl
  | cons x xs ih =>
    simp [List.takeWhile_cons, h x (List.mem_cons_self x xs),
      ih (fun y hy => h y (List.mem_cons_of_mem x hy))]

lemma dropWhile_of_all {p : α → Bool} {l : List α} (h : ∀ x ∈ l, p x = true) :
    l.dropWhile p = [] := by
  induction l with
  | nil => rfl
  | cons x xs ih =>
    simp [List.dropWhile_cons, h x (List.mem_cons_self x xs),
      ih (fun y hy => h y (List.mem_cons_of_mem x hy))]

lemma takeWhile_middle {p : α → Bool} {l₁ : List α} (x : α) (l₂ : List α)
    (h : ∀ y ∈ l₁, p y = true) (hx : p x = false) :
    (l₁ ++ x :: l₂).takeWhile p = l₁ := by
  induction l₁ with
  | nil => simp [List.takeWhile_cons, hx]
  | cons y ys ih =>
    simp [List.takeWhile_cons, h y (List.mem_cons_self y ys),
      ih (fun z hz => h z (List.mem_cons_of_mem y hz))]

lemma dropWhile_middle {p : α → Bool} {l₁ : List α} (x : α) (l₂ : List α)
    (h : ∀ y ∈ l₁, p y = true) (hx : p x = false) :
    (l₁ ++ x :: l₂).dropWhile p = x :: l₂ := by
  induction l₁ with
  | nil => simp [List.dropWhile_cons, hx]
  | cons y ys ih =>
    simp [List.dropWhile_cons, h y (List.mem_cons_self y ys),
      ih (fun z hz => h z (List.mem_cons_of_mem y hz))]

/-- Python's rfind-based basename agrees with the spec-style one. -/
lemma basenameL_eq_spec (l : List Char) : basenameL l = specBasenameL l := by
  by_cases h : '/' ∈ l
  · obtain ⟨a, b, rfl, hb⟩ := exists_last_of_mem h
    have hr := rfindIdx_last (c := '/') a hb
    have hd : basenameL (a ++ '/' :: b) = b := by
      unfold basenameL
      rw [hr]
      have : ((a.length : Int) + 1).toNat = (a ++ ['/']).length := by
        simp
      rw [this]
      have : a ++ '/' :: b = (a ++ ['/']) ++ b := by simp
      rw [this, List.drop_left]
    rw [hd]
    unfold specBasenameL
    rw [List.reverse_append, List.reverse_cons]
    have hall : ∀ y ∈ b.reverse, (fun c => decide (c ≠ '/')) y = true := by
      intro y hy
      simp only [decide_eq_true_eq]
      intro hc
      exact hb (hc ▸ List.mem_reverse.mp hy)
    have := takeWhile_middle '/' (a.reverse) hall (by simp)
    simp only [List.append_assoc, List.cons_append, List.nil_append] at this ⊢
    rw [this, List.reverse_reverse]
  · unfold basenameL specBasenameL
    rw [rfindIdx_of_not_mem h]
    simp only [Int.reduceNeg, neg_add_cancel, Int.toNat_zero, List.drop_zero]
    rw [takeWhile_of_all, List.reverse_reverse]
    intro y hy
    simp only [decide_eq_true_eq]
    intro hc
    exact h (hc ▸ List.mem_reverse.mp hy)

/-- Python's `splitext` (first component) agrees with the spec-style
extension stripper on slash-free inputs such as base names. -/
lemma splitextL_fst_eq_spec {l : List Char} (hs : '/' ∉ l) :
    (splitextL l).1 = specStripExtL l := by
  have hsi : rfindIdx '/' l = -1 := rfindIdx_of_not_mem hs
  by_cases h : '.' ∈ l
  · obtain ⟨a, b, rfl, hb⟩ := exists_last_of_mem h
    have hdi := rfindIdx_last (c := '.') a hb
    have hall : ∀ y ∈ b.reverse, (fun c => decide (c ≠ '.')) y = true := by
      intro y hy
      simp only [decide_eq_true_eq]
      intro hc
      exact hb (hc ▸ List.mem_reverse.mp hy)
    have hdrop : (a ++ '.' :: b).reverse.dropWhile (fun c => decide (c ≠ '.')) =
        '.' :: a.reverse := by
      rw [List.reverse_append, List.reverse_cons]
      have := dropWhile_middle '.' (a.reverse) hall (by simp)
      simpa [List.append_assoc] using this
    have hlt : (-1 : Int) < (a.length : Int) := by
      have : (0 : Int) ≤ (a.length : Int) := Int.natCast_nonneg _
      omega
    have htake : ((a ++ '.' :: b).take ((a.length : Int)).toNat) = a := by
      simp [List.take_left]
    have hinner :
        (((a ++ '.' :: b).drop ((-1 : Int) + 1).toNat).take
          ((a.length : Int) - (-1) - 1).toNat) = a := by
      have h0 : ((-1 : Int) + 1).toNat = 0 := by simp
      have h1 : ((a.length : Int) - (-1) - 1).toNat = a.length := by omega
      rw [h0, h1]
      simp [List.take_left]
    simp only [splitextL, specStripExtL, hsi, hdi, hdrop, hinner,
      if_pos hlt, htake]
    simp only [List.any_reverse, List.reverse_reverse, List.tail_cons,
      List.any_eq_true, decide_eq_true_eq, reduceCtorEq, if_false]
    split <;> rfl
  · have hdi : rfindIdx '.' l = -1 := rfindIdx_of_not_mem h
    unfold splitextL specStripExtL
    rw [hsi, hdi]
    have hnlt : ¬ ((-1 : Int) < (-1 : Int)) := by omega
    have hall : ∀ y ∈ l.reverse, (fun c => decide (c ≠ '.')) y = true := by
      intro y hy
      simp only [decide_eq_true_eq]
      intro hc
      exact h (hc ▸ List.mem_reverse.mp hy)
    simp only [splitextL, specStripExtL, hsi, hdi, if_neg hnlt,
      dropWhile_of_all hall]
    simp

/-- Base names contain no slash. -/
lemma no_slash_basenameL (l : List Char) : '/' ∉ basenameL l := by
  rw [basenameL_eq_spec]
  intro hm
  have := List.mem_takeWhile_imp (List.mem_reverse.mp hm)
  simp at this

/-- `discover_unprocessed_files` tests each file's generated cache-name pair
for membership in the set of generated pairs of the same files, so the test
always succeeds and nothing survives the filter. -/
lemma discover_eq_nil (vc : VC) (w : World) (d : String) :
    discover_unprocessed_files vc w d = [] := by
  unfold discover_unprocessed_files
  apply List.filter_eq_nil_iff.mpr
  intro f hf
  simp only [Bool.not_eq_true', decide_eq_false_iff_not, Decidable.not_not]
  exact List.mem_map_of_mem _ hf

/-! ### Store lemmas -/

lemma storeGet_storePut (c : Store) (k : String) (v : Int) (k' : String) :
    storeGet (storePut c k v) k' = if k = k' then some v else storeGet c k' := by
  induction c with
  | nil => simp [storePut, storeGet]
  | cons kv rest ih =>
    by_cases hk : kv.1 = k
    · simp only [storePut, if_pos hk, storeGet]
      by_cases hk' : k = k'
      · simp [hk']
      · have : ¬ kv.1 = k' := by rw [hk]; exact hk'
        simp [hk', this]
    · simp only [storePut, if_neg hk, storeGet]
      by_cases hk' : kv.1 = k'
      · have : ¬ k = k' := fun h => hk (by rw [h, hk'])
        simp [hk', this]
      · simp [hk', ih]

lemma storeHas_storePutAll_mono {c : Store} (ps : List (String × Int)) {k : String}
    (h : storeHas c k = true) : storeHas (storePutAll c ps) k = true := by
  induction ps generalizing c with
  | nil => exact h
  | cons p rest ih =>
    apply ih
    unfold storeHas at h ⊢
    rw [storeGet_storePut]
    by_cases hp : p.1 = k
    · simp [hp]
    · simp [hp, h]

lemma storeHas_storePutAll_of_mem {c : Store} {ps : List (String × Int)} {k : String}
    (h : k ∈ ps.map Prod.fst) : storeHas (storePutAll c ps) k = true := by
  induction ps generalizing c with
  | nil => cases h
  | cons p rest ih =>
    rcases List.mem_cons.mp h with h' | h'
    · show storeHas (storePutAll (storePut c p.1 p.2) rest) k = true
      apply storeHas_storePutAll_mono
      unfold storeHas
      rw [storeGet_storePut]
      simp [h']
    · exact ih h'

lemma storeGet_storePutAll_eq {c : Store} {ps : List (String × Int)} {k : String} {v : Int}
    (h : storeGet c k = some v) (hp : ∀ q ∈ ps, q.1 = k → q.2 = v) :
    storeGet (storePutAll c ps) k = some v := by
  induction ps generalizing c with
  | nil => exact h
  | cons p rest ih =>
    apply ih
    · rw [storeGet_storePut]
      by_cases hpk : p.1 = k
      · rw [if_pos hpk, hp p (List.mem_cons_self p rest) hpk]
      · rw [if_neg hpk]; exact h
    · exact fun q hq => hp q (List.mem_cons_of_mem p hq)

lemma storePut_keys_mono {c : Store} (k : String) (v : Int) {x : String}
    (h : x ∈ c.map Prod.fst) : x ∈ (storePut c k v).map Prod.fst := by
  induction c with
  | nil => cases h
  | cons kv rest ih =>
    by_cases hk : kv.1 = k
    · simp only [storePut, if_pos hk, List.map_cons, List.mem_cons] at h ⊢
      rcases h with h' | h'
      · left; rw [h', hk]
      · right; exact h'
    · simp only [storePut, if_neg hk, List.map_cons, List.mem_cons] at h ⊢
      rcases h with h' | h'
      · left; exact h'
      · right; exact ih h'

lemma storePutAll_keys_mono {c : Store} (ps : List (String × Int)) {x : String}
    (h : x ∈ c.map Prod.fst) : x ∈ (storePutAll c ps).map Prod.fst := by
  induction ps generalizing c with
  | nil => exact h
  | cons p rest ih => exact ih (storePut_keys_mono p.1 p.2 h)

/-! ### encode_image_batch lemmas -/

/-- Value of the `k`-th entry produced by the per-file loop. -/
def encodeOut (vc : VC) (w : World) (latents : List Int) (i : Nat)
    (fps : List String) (k : Nat) : Int :=
  if storeHas w.cache (_generate_filename vc (fps.getD k "")).1 then
    load_from_cache w (_generate_filename vc (fps.getD k "")).1
  else latents.getD (i + k) 0

/-- Full characterization of the per-file loop when enough latents are
available: it never fails, returns one generated cache filename per
filepath, and each output is the cached value when an entry exists,
otherwise the (scaled) latent at the corresponding index. -/
lemma encodeLoop_eq (vc : VC) (w : World) :
    ∀ (fps : List String) (i : Nat) (latents : List Int)
      (names : List String) (outs : List Int),
    i + fps.length ≤ latents.length →
    encodeLoop vc w fps i latents names outs =
      some (names.reverse ++ fps.map (fun fp => (_generate_filename vc fp).1),
            outs.reverse ++ (List.range fps.length).map (encodeOut vc w latents i fps)) := by
  intro fps
  induction fps with
  | nil => intro i latents names outs _; simp [encodeLoop]
  | cons fp rest ih =>
    intro i latents names outs h
    have hi : i < latents.length := by simp at h; omega
    rw [encodeLoop, if_pos hi]
    by_cases hc : storeHas w.cache (_generate_filename vc fp).1 = true
    · rw [if_pos hc]
      have hlen : (latents.set i (load_from_cache w (_generate_filename vc fp).1)).length
          = latents.length := List.length_set ..
      rw [ih (i+1) _ _ _ (by rw [hlen]; simp at h ⊢; omega)]
      have hget : (latents.set i (load_from_cache w (_generate_filename vc fp).1)).getD i 0 =
          load_from_cache w (_generate_filename vc fp).1 := by
        rw [List.getD_eq_getElem?_getD, List.getElem?_set_self',
          List.getElem?_eq_getElem hi]
        rfl
      have hhead : load_from_cache w (_generate_filename vc fp).1 =
          encodeOut vc w latents i (fp :: rest) 0 := by
        unfold encodeOut
        simp only [List.getD_cons_zero, if_pos hc]
      have htail : ∀ k,
          encodeOut vc w (latents.set i (load_from_cache w (_generate_filename vc fp).1))
            (i+1) rest k = encodeOut vc w latents i (fp :: rest) (k+1) := by
        intro k
        unfold encodeOut
        simp only [List.getD_cons_succ]
        by_cases hck : storeHas w.cache (_generate_filename vc (rest.getD k "")).1 = true
        · rw [if_pos hck, if_pos hck]
        · rw [if_neg hck, if_neg hck]
          rw [List.getD_eq_getElem?_getD, List.getD_eq_getElem?_getD,
            List.getElem?_set_ne (by omega : i ≠ i + 1 + k)]
          congr 2
          omega
      simp only [List.length_cons, List.range_succ_eq_map, List.reverse_cons,
        List.append_assoc, List.singleton_append, List.map_cons, List.map_map,
        hget, Prod.mk.injEq]
      have htail' :
          List.map
            (encodeOut vc w (latents.set i (load_from_cache w (_generate_filename vc fp).1))
              (i+1) rest) (List.range rest.length) =
          List.map (encodeOut vc w latents i (fp :: rest) ∘ Nat.succ)
            (List.range rest.length) :=
        List.map_congr_left (fun k _ => by simpa using htail k)
      rw [htail', hhead]
    · rw [if_neg hc]
      rw [ih (i+1) latents _ _ (by simp at h ⊢; omega)]
      have hhead : latents.getD i 0 = encodeOut vc w latents i (fp :: rest) 0 := by
        unfold encodeOut
        simp only [List.getD_cons_zero, if_neg hc, Nat.add_zero]
      have htail : ∀ k,
          encodeOut vc w latents (i+1) rest k = encodeOut vc w latents i (fp :: rest) (k+1) := by
        intro k
        unfold encodeOut
        simp only [List.getD_cons_succ]
        congr 2
        omega
      simp only [List.length_cons, List.range_succ_eq_map, List.reverse_cons,
        List.append_assoc, List.singleton_append, List.map_cons, List.map_map,
        Prod.mk.injEq]
      have htail' :
          List.map (encodeOut vc w latents (i+1) rest) (List.range rest.length) =
          List.map (encodeOut vc w latents i (fp :: rest) ∘ Nat.succ)
            (List.range rest.length) :=
        List.map_congr_left (fun k _ => by simpa using htail k)
      rw [htail', hhead]

/-- On success the per-file loop returns exactly the generated cache
filenames of the filepaths it was given, with one output per filepath
(no length assumption needed). -/
lemma encodeLoop_names (vc : VC) (w : World) :
    ∀ (fps : List String) (i : Nat) (latents : List Int)
      (names N : List String) (outs O : List Int),
    encodeLoop vc w fps i latents names outs = some (N, O) →
    N = names.reverse ++ fps.map (fun fp => (_generate_filename vc fp).1) ∧
    O.length = outs.length + fps.length := by
  intro fps
  induction fps with
  | nil =>
    intro i latents names N outs O h
    simp [encodeLoop] at h
    simp [← h.1, ← h.2]
  | cons fp rest ih =>
    intro i latents names N outs O h
    rw [encodeLoop] at h
    by_cases hi : i < latents.length
    · rw [if_pos hi] at h
      by_cases hc : storeHas w.cache (_generate_filename vc fp).1 = true
      · rw [if_pos hc] at h
        obtain ⟨h1, h2⟩ := ih _ _ _ _ _ _ h
        constructor
        · rw [h1]; simp
        · rw [h2, List.length_cons, List.length_cons]; omega
      · rw [if_neg hc] at h
        obtain ⟨h1, h2⟩ := ih _ _ _ _ _ _ h
        constructor
        · rw [h1]; simp
        · rw [h2, List.length_cons, List.length_cons]; omega
    · rw [if_neg hi] at h
      cases h

lemma getD_map_range {n i : Nat} (f : Nat → Int) (h : i < n) :
    ((List.range n).map f).getD i 0 = f i := by
  rw [List.getD_eq_getElem?_getD, List.getElem?_map, List.getElem?_range h]
  rfl

/-- `encode_image_batch` on a nonempty batch with enough pixel tensors:
exactly one Transform Engine call on the whole batch, and per item the
cached value when an entry exists, otherwise the scaled latent. -/
lemma encode_image_batch_eq (vc : VC) (oc : Oracles) (w : World)
    (pvs : List Int) (fps : List String) (hne : pvs ≠ [])
    (hlen : fps.length ≤ pvs.length) :
    encode_image_batch vc oc w pvs fps =
      ([Event.transformCall pvs],
       some (fps.map (fun fp => (_generate_filename vc fp).1),
             (List.range fps.length).map
               (encodeOut vc w
                 ((oc.vaeEncode pvs).map (fun v => v * oc.scaling_factor)) 0 fps))) := by
  unfold encode_image_batch
  rw [if_neg hne,
    encodeLoop_eq vc w fps 0 _ [] []
      (by simp [oc.vaeEncode_len]; omega)]
  simp

lemma storeHas_iff_mem {c : Store} {k : String} :
    storeHas c k = true ↔ k ∈ c.map Prod.fst := by
  induction c with
  | nil => simp [storeHas, storeGet]
  | cons kv rest ih =>
    by_cases hk : kv.1 = k
    · simp [storeHas, storeGet, hk]
    · simp only [storeHas, storeGet, if_neg hk, List.map_cons, List.mem_cons]
      rw [← storeHas]
      rw [ih]
      constructor
      · exact fun h => Or.inr h
      · rintro (h | h)
        · exact absurd h.symm hk
        · exact h

/-! ### Evolution of the backend state across the processing loop -/

/-- The set of cache keys only grows. -/
def cacheGrows (w w' : World) : Prop :=
  ∀ k, k ∈ w.cache.map Prod.fst → k ∈ w'.cache.map Prod.fst

/-- The source walk only loses files (through FailurePolicy deletions). -/
def walkShrinks (w w' : World) : Prop :=
  ∀ p ∈ w'.sourceWalk, ∃ q ∈ w.sourceWalk, p.1 = q.1 ∧ ∀ n ∈ p.2, n ∈ q.2

lemma cacheGrows_refl (w : World) : cacheGrows w w := fun _ h => h

lemma walkShrinks_refl (w : World) : walkShrinks w w :=
  fun p hp => ⟨p, hp, rfl, fun _ hn => hn⟩

lemma cacheGrows_trans {w1 w2 w3 : World}
    (h1 : cacheGrows w1 w2) (h2 : cacheGrows w2 w3) : cacheGrows w1 w3 :=
  fun k hk => h2 k (h1 k hk)

lemma walkShrinks_trans {w1 w2 w3 : World}
    (h1 : walkShrinks w1 w2) (h2 : walkShrinks w2 w3) : walkShrinks w1 w3 := by
  intro p hp
  obtain ⟨q, hq, hq1, hq2⟩ := h2 p hp
  obtain ⟨r, hr, hr1, hr2⟩ := h1 q hq
  exact ⟨r, hr, hq1.trans hr1, fun n hn => hr2 n (hq2 n hn)⟩

lemma cacheGrows_writeBatch (w : World) (names : List String) (vals : List Int) :
    cacheGrows w (writeBatch w names vals) :=
  fun _ hk => storePutAll_keys_mono _ hk

lemma walkShrinks_worldDelete (w : World) (p : String) :
    walkShrinks w (worldDelete w p) := by
  intro q hq
  unfold worldDelete at hq
  simp only [List.mem_map] at hq
  obtain ⟨r, hr, hrq⟩ := hq
  refine ⟨r, hr, ?_, ?_⟩
  · rw [← hrq]
  · intro n hn
    rw [← hrq] at hn
    exact (List.mem_filter.mp hn).1

lemma cache_ifDelete (w : World) (flag : Bool) (p : String) :
    (if flag = true then worldDelete w p else w).cache = w.cache := by
  by_cases h : flag = true <;> simp [h, worldDelete]

/-! ### Case analysis of one loop iteration -/

/-- Exhaustive description of what `processStep` can do, mirroring the five
control paths of vae.py lines 147-176 (plus the already-failed case). -/
lemma processStep_cases (vc : VC) (oc : Oracles) (s : LoopSt) (fp : String) :
    (s.ok = false ∧ processStep vc oc s fp = s) ∨
    (s.ok = true ∧ storeHas s.world.cache (_generate_filename vc fp).1 = true ∧
      processStep vc oc s fp = s) ∨
    (s.ok = true ∧ storeHas s.world.cache (_generate_filename vc fp).1 = false ∧
      oc.decodeItem fp = none ∧
      processStep vc oc s fp =
        { s with world :=
            if vc.delete_problematic_images = true then worldDelete s.world fp
            else s.world }) ∨
    (∃ pv, s.ok = true ∧ storeHas s.world.cache (_generate_filename vc fp).1 = false ∧
      oc.decodeItem fp = some pv ∧
      (s.curPvs ++ [pv]).length ≠ vc.write_batch_size ∧
      processStep vc oc s fp =
        { s with curPaths := s.curPaths ++ [fp], curPvs := s.curPvs ++ [pv] }) ∨
    (∃ pv names outs, s.ok = true ∧
      storeHas s.world.cache (_generate_filename vc fp).1 = false ∧
      oc.decodeItem fp = some pv ∧
      (s.curPvs ++ [pv]).length = vc.write_batch_size ∧
      names = (s.curPaths ++ [fp]).map (fun g => (_generate_filename vc g).1) ∧
      outs.length = (s.curPaths ++ [fp]).length ∧
      processStep vc oc s fp =
        { world := writeBatch s.world names outs
          curPaths := []
          curPvs := []
          trace := s.trace ++ [Event.transformCall (s.curPvs ++ [pv])] ++
            [Event.flush names outs]
          ok := true }) ∨
    (∃ pv tr, s.ok = true ∧
      storeHas s.world.cache (_generate_filename vc fp).1 = false ∧
      oc.decodeItem fp = some pv ∧
      (s.curPvs ++ [pv]).length = vc.write_batch_size ∧
      processStep vc oc s fp = { s with trace := s.trace ++ tr, ok := false }) := by
  by_cases hok : s.ok = true
  · by_cases hc : storeHas s.world.cache (_generate_filename vc fp).1 = true
    · refine Or.inr (Or.inl ⟨hok, hc, ?_⟩)
      unfold processStep
      rw [if_pos hok, if_pos hc]
    · rcases hd : oc.decodeItem fp with _ | pv
      · refine Or.inr (Or.inr (Or.inl ⟨hok, by simp at hc; exact hc, rfl, ?_⟩))
        unfold processStep
        rw [if_pos hok, if_neg hc, hd]
      · by_cases hb : (s.curPvs ++ [pv]).length = vc.write_batch_size
        · rcases hE : encode_image_batch vc oc s.world (s.curPvs ++ [pv])
            (s.curPaths ++ [fp]) with ⟨tr, res⟩
          rcases res with _ | ⟨names, outs⟩
          · refine Or.inr (Or.inr (Or.inr (Or.inr (Or.inr
              ⟨pv, tr, hok, by simp at hc; exact hc, rfl, hb, ?_⟩))))
            unfold processStep
            rw [if_pos hok, if_neg hc, hd]
            simp only [if_pos hb, hE]
          · have hne : s.curPvs ++ [pv] ≠ [] := by simp
            have hpair := hE
            unfold encode_image_batch at hpair
            rw [if_neg hne] at hpair
            have htr : tr = [Event.transformCall (s.curPvs ++ [pv])] := by
              have := congrArg Prod.fst hpair
              simpa using this.symm
            have hEL : encodeLoop vc s.world (s.curPaths ++ [fp]) 0
                ((oc.vaeEncode (s.curPvs ++ [pv])).map (fun v => v * oc.scaling_factor))
                [] [] = some (names, outs) := by
              have := congrArg Prod.snd hpair
              simpa using this
            obtain ⟨hn, ho⟩ := encodeLoop_names vc s.world _ _ _ _ _ _ _ hEL
            refine Or.inr (Or.inr (Or.inr (Or.inr (Or.inl
              ⟨pv, names, outs, hok, by simp at hc; exact hc, rfl, hb, ?_, ?_, ?_⟩))))
            · simpa using hn
            · rw [ho]
              simp
            · unfold processStep
              rw [if_pos hok, if_neg hc, hd]
              simp only [if_pos hb, hE, htr]
        · refine Or.inr (Or.inr (Or.inr (Or.inl ⟨pv, hok, by simp at hc; exact hc, rfl, hb, ?_⟩)))
          unfold processStep
          rw [if_pos hok, if_neg hc, hd]
          simp only [if_neg hb]
  · refine Or.inl ⟨by simpa using hok, ?_⟩
    unfold processStep
    rw [if_neg hok]

/-! ### Loop invariants -/

/-- A file that is already cached or whose decode step fails. -/
def cachedOrFail (vc : VC) (oc : Oracles) (w : World) (fp : String) : Prop :=
  storeHas w.cache (_generate_filename vc fp).1 = true ∨ oc.decodeItem fp = none

lemma cachedOrFail_mono {vc : VC} {oc : Oracles} {w w' : World}
    (hg : cacheGrows w w') {fp : String}
    (h : cachedOrFail vc oc w fp) : cachedOrFail vc oc w' fp := by
  rcases h with h | h
  · exact Or.inl (storeHas_iff_mem.mpr (hg _ (storeHas_iff_mem.mp h)))
  · exact Or.inr h

lemma walkShrinks_writeBatch (w : World) (names : List String) (vals : List Int) :
    walkShrinks w (writeBatch w names vals) :=
  fun p hp => ⟨p, hp, rfl, fun _ hn => hn⟩

lemma cacheGrows_ifDelete (w : World) (flag : Bool) (p : String) :
    cacheGrows w (if flag = true then worldDelete w p else w) := by
  by_cases h : flag = true <;> simp only [h, if_true, if_false]
  · exact fun k hk => hk
  · exact cacheGrows_refl w

lemma walkShrinks_ifDelete (w : World) (flag : Bool) (p : String) :
    walkShrinks w (if flag = true then worldDelete w p else w) := by
  by_cases h : flag = true <;> simp only [h, if_true, if_false]
  · exact walkShrinks_worldDelete w p
  · exact walkShrinks_refl w

lemma processStep_world (vc : VC) (oc : Oracles) (s : LoopSt) (fp : String) :
    cacheGrows s.world (processStep vc oc s fp).world ∧
    walkShrinks s.world (processStep vc oc s fp).world := by
  rcases processStep_cases vc oc s fp with
    ⟨_, hs⟩ | ⟨_, _, hs⟩ | ⟨_, _, _, hs⟩ | ⟨pv, _, _, _, _, hs⟩ |
    ⟨pv, names, outs, _, _, _, _, _, _, hs⟩ | ⟨pv, tr, _, _, _, _, hs⟩ <;> rw [hs]
  · exact ⟨cacheGrows_refl _, walkShrinks_refl _⟩
  · exact ⟨cacheGrows_refl _, walkShrinks_refl _⟩
  · exact ⟨cacheGrows_ifDelete _ _ _, walkShrinks_ifDelete _ _ _⟩
  · exact ⟨cacheGrows_refl _, walkShrinks_refl _⟩
  · exact ⟨cacheGrows_writeBatch _ _ _, walkShrinks_writeBatch _ _ _⟩
  · exact ⟨cacheGrows_refl _, walkShrinks_refl _⟩

lemma foldl_world (vc : VC) (oc : Oracles) :
    ∀ (l : List String) (s : LoopSt),
    cacheGrows s.world ((l.foldl (processStep vc oc) s).world) ∧
    walkShrinks s.world ((l.foldl (processStep vc oc) s).world) := by
  intro l
  induction l with
  | nil => exact fun s => ⟨cacheGrows_refl _, walkShrinks_refl _⟩
  | cons x xs ih =>
    intro s
    obtain ⟨hg1, hs1⟩ := processStep_world vc oc s x
    obtain ⟨hg2, hs2⟩ := ih (processStep vc oc s x)
    exact ⟨cacheGrows_trans hg1 hg2, walkShrinks_trans hs1 hs2⟩

lemma finishRun_world (vc : VC) (oc : Oracles) (files : List String) (s1 : LoopSt) :
    cacheGrows s1.world (finishRun vc oc files s1).world ∧
    walkShrinks s1.world (finishRun vc oc files s1).world := by
  unfold finishRun
  by_cases hcond : s1.ok = true ∧ s1.curPvs ≠ []
  · rw [if_pos hcond]
    rcases hE : encode_image_batch vc oc s1.world s1.curPvs files with ⟨tr, res⟩
    rcases res with _ | ⟨names, outs⟩
    · simp only [hE]
      exact ⟨cacheGrows_refl _, walkShrinks_refl _⟩
    · simp only [hE]
      exact ⟨cacheGrows_writeBatch _ _ _, walkShrinks_writeBatch _ _ _⟩
  · rw [if_neg hcond]
    exact ⟨cacheGrows_refl _, walkShrinks_refl _⟩

lemma runLoop_world (vc : VC) (oc : Oracles) (w : World) (files : List String) :
    cacheGrows w (runLoop vc oc w files).world ∧
    walkShrinks w (runLoop vc oc w files).world := by
  unfold runLoop
  obtain ⟨hg1, hs1⟩ := foldl_world vc oc files ⟨w, [], [], [], true⟩
  obtain ⟨hg2, hs2⟩ := finishRun_world vc oc files
    (files.foldl (processStep vc oc) ⟨w, [], [], [], true⟩)
  exact ⟨cacheGrows_trans hg1 hg2, walkShrinks_trans hs1 hs2⟩

/-- Invariant of the item loop: while no exception has escaped, the batch
lists stay in sync and every processed file is cached, failed, or still
waiting in the current batch. -/
def LoopInv (vc : VC) (oc : Oracles) (done : List String) (s : LoopSt) : Prop :=
  s.ok = true →
    s.curPaths.length = s.curPvs.length ∧
    ∀ fp ∈ done, cachedOrFail vc oc s.world fp ∨ fp ∈ s.curPaths

/-- Keys flushed by a full batch become present in the store. -/
lemma flushed_has {vc : VC} {s : LoopSt} {fp : String} {names : List String}
    {outs : List Int}
    (hn : names = (s.curPaths ++ [fp]).map (fun g => (_generate_filename vc g).1))
    (ho : outs.length = (s.curPaths ++ [fp]).length)
    {g : String} (hg : g ∈ s.curPaths ++ [fp]) :
    storeHas (writeBatch s.world names outs).cache (_generate_filename vc g).1 = true := by
  apply storeHas_storePutAll_of_mem
  rw [List.map_fst_zip]
  · rw [hn]
    exact List.mem_map_of_mem _ hg
  · rw [hn, ho, List.length_map]

lemma processStep_inv (vc : VC) (oc : Oracles) (done : List String) (s : LoopSt)
    (fp : String) (h : LoopInv vc oc done s) :
    LoopInv vc oc (done ++ [fp]) (processStep vc oc s fp) := by
  rcases processStep_cases vc oc s fp with
    ⟨h0, hs⟩ | ⟨hok, hc, hs⟩ | ⟨hok, hc, hd, hs⟩ | ⟨pv, hok, hc, hd, hb, hs⟩ |
    ⟨pv, names, outs, hok, hc, hd, hb, hn, ho, hs⟩ | ⟨pv, tr, hok, hc, hd, hb, hs⟩ <;>
    rw [hs]
  · intro hok
    rw [h0] at hok
    cases hok
  · intro _
    obtain ⟨hl, hcov⟩ := h hok
    refine ⟨hl, ?_⟩
    intro g hg
    rcases List.mem_append.mp hg with hg | hg
    · exact hcov g hg
    · rw [List.mem_singleton.mp hg]
      exact Or.inl (Or.inl hc)
  · intro _
    obtain ⟨hl, hcov⟩ := h hok
    refine ⟨hl, ?_⟩
    intro g hg
    have hcache :
        (if vc.delete_problematic_images = true then worldDelete s.world fp
          else s.world).cache = s.world.cache := cache_ifDelete s.world _ fp
    rcases List.mem_append.mp hg with hg | hg
    · rcases hcov g hg with hcf | hcur
      · left
        unfold cachedOrFail at hcf ⊢
        rw [hcache]
        exact hcf
      · exact Or.inr hcur
    · rw [List.mem_singleton.mp hg]
      left
      exact Or.inr hd
  · intro _
    obtain ⟨hl, hcov⟩ := h hok
    constructor
    · simp [hl]
    · intro g hg
      rcases List.mem_append.mp hg with hg | hg
      · rcases hcov g hg with hcf | hcur
        · exact Or.inl hcf
        · exact Or.inr (List.mem_append_left _ hcur)
      · rw [List.mem_singleton.mp hg]
        exact Or.inr (List.mem_append_right _ (List.mem_singleton.mpr rfl))
  · intro _
    obtain ⟨hl, hcov⟩ := h hok
    refine ⟨rfl, ?_⟩
    intro g hg
    rcases List.mem_append.mp hg with hg | hg
    · rcases hcov g hg with hcf | hcur
      · exact Or.inl (cachedOrFail_mono (cacheGrows_writeBatch _ _ _) hcf)
      · exact Or.inl (Or.inl (flushed_has hn ho (List.mem_append_left _ hcur)))
    · rw [List.mem_singleton.mp hg]
      exact Or.inl (Or.inl (flushed_has hn ho
        (List.mem_append_right _ (List.mem_singleton.mpr rfl))))
  · intro hok2
    cases hok2

lemma foldl_inv (vc : VC) (oc : Oracles) :
    ∀ (l done : List String) (s : LoopSt),
    LoopInv vc oc done s →
    LoopInv vc oc (done ++ l) (l.foldl (processStep vc oc) s) := by
  intro l
  induction l with
  | nil => intro done s h; simpa using h
  | cons x xs ih =>
    intro done s h
    have h1 := processStep_inv vc oc done s x h
    have h2 := ih (done ++ [x]) (processStep vc oc s x) h1
    simpa [List.append_assoc] using h2

/-- If `process_directory`'s loop returns normally, every worklist item ends
up cached or recorded as a decode failure. -/
lemma run_covers (vc : VC) (oc : Oracles) (w : World) (files : List String)
    (hok : (runLoop vc oc w files).ok = true) :
    ∀ fp ∈ files, cachedOrFail vc oc (runLoop vc oc w files).world fp := by
  intro fp hfp
  have hinv : LoopInv vc oc ([] ++ files)
      (files.foldl (processStep vc oc) ⟨w, [], [], [], true⟩) :=
    foldl_inv vc oc files [] _ (fun _ => ⟨rfl, by simp⟩)
  simp only [List.nil_append] at hinv
  unfold runLoop at hok ⊢
  unfold finishRun at hok ⊢
  by_cases hcond : (files.foldl (processStep vc oc) ⟨w, [], [], [], true⟩).ok = true ∧
      (files.foldl (processStep vc oc) ⟨w, [], [], [], true⟩).curPvs ≠ []
  · rw [if_pos hcond] at hok ⊢
    rcases hE : encode_image_batch vc oc
        (files.foldl (processStep vc oc) ⟨w, [], [], [], true⟩).world
        (files.foldl (processStep vc oc) ⟨w, [], [], [], true⟩).curPvs files with ⟨tr, res⟩
    rcases res with _ | ⟨names, outs⟩
    · simp only [hE] at hok
      cases hok
    · simp only [hE] at hok ⊢
      have hpair := hE
      unfold encode_image_batch at hpair
      rw [if_neg hcond.2] at hpair
      have hEL : encodeLoop vc
          (files.foldl (processStep vc oc) ⟨w, [], [], [], true⟩).world files 0
          ((oc.vaeEncode (files.foldl (processStep vc oc) ⟨w, [], [], [], true⟩).curPvs).map
            (fun v => v * oc.scaling_factor)) [] [] = some (names, outs) := by
        have := congrArg Prod.snd hpair
        simpa using this
      obtain ⟨hn, ho⟩ := encodeLoop_names vc _ _ _ _ _ _ _ _ hEL
      left
      apply storeHas_storePutAll_of_mem
      rw [List.map_fst_zip]
      · rw [hn]
        simp only [List.reverse_nil, List.nil_append]
        exact List.mem_map_of_mem _ hfp
      · rw [hn, ho]
        simp
  · rw [if_neg hcond] at hok ⊢
    have hok1 := hok
    have hpvs : (files.foldl (processStep vc oc) ⟨w, [], [], [], true⟩).curPvs = [] := by
      by_contra hne
      exact hcond ⟨hok1, hne⟩
    obtain ⟨hl, hcov⟩ := hinv hok1
    have hpaths : (files.foldl (processStep vc oc) ⟨w, [], [], [], true⟩).curPaths = [] := by
      apply List.length_eq_zero.mp
      rw [hl, hpvs]
      rfl
    rcases hcov fp hfp with h | h
    · exact h
    · rw [hpaths] at h
      cases h

/-! ### A run over an already-covered worklist does nothing -/

/-- State of a run in which nothing has been batched, written or traced. -/
def UntouchedInv (w : World) (s : LoopSt) : Prop :=
  s.ok = true ∧ s.curPaths = [] ∧ s.curPvs = [] ∧
  s.world.cache = w.cache ∧ s.trace = []

lemma processStep_untouched (vc : VC) (oc : Oracles) (w : World) (s : LoopSt)
    (fp : String) (h : UntouchedInv w s)
    (hcf : storeHas w.cache (_generate_filename vc fp).1 = true ∨
      oc.decodeItem fp = none) :
    UntouchedInv w (processStep vc oc s fp) := by
  obtain ⟨hok, hp, hv, hc, ht⟩ := h
  rcases processStep_cases vc oc s fp with
    ⟨h0, hs⟩ | ⟨_, _, hs⟩ | ⟨_, _, _, hs⟩ | ⟨pv, _, hch, hdn, _, hs⟩ |
    ⟨pv, names, outs, _, hch, hdn, _, _, _, hs⟩ | ⟨pv, tr, _, hch, hdn, _, hs⟩
  · rw [hok] at h0
    cases h0
  · rw [hs]
    exact ⟨hok, hp, hv, hc, ht⟩
  · rw [hs]
    refine ⟨hok, hp, hv, ?_, ht⟩
    show (if vc.delete_problematic_images = true then worldDelete s.world fp
      else s.world).cache = w.cache
    rw [cache_ifDelete]
    exact hc
  all_goals
    exfalso
    rcases hcf with hx | hx
    · rw [hc] at hch
      rw [hch] at hx
      cases hx
    · rw [hdn] at hx
      cases hx

lemma foldl_untouched (vc : VC) (oc : Oracles) (w : World) :
    ∀ (l : List String) (s : LoopSt),
    UntouchedInv w s →
    (∀ fp ∈ l, storeHas w.cache (_generate_filename vc fp).1 = true ∨
      oc.decodeItem fp = none) →
    UntouchedInv w (l.foldl (processStep vc oc) s) := by
  intro l
  induction l with
  | nil => exact fun s h _ => h
  | cons x xs ih =>
    intro s h hall
    exact ih (processStep vc oc s x)
      (processStep_untouched vc oc w s x h (hall x (List.mem_cons_self x xs)))
      (fun fp hfp => hall fp (List.mem_cons_of_mem x hfp))

/-- A worklist every item of which is cached or failing leads to a run with
no effects at all: no exception, no cache change, no trace. -/
lemma run_untouched (vc : VC) (oc : Oracles) (w : World) (files : List String)
    (h : ∀ fp ∈ files, storeHas w.cache (_generate_filename vc fp).1 = true ∨
      oc.decodeItem fp = none) :
    (runLoop vc oc w files).ok = true ∧
    (runLoop vc oc w files).world.cache = w.cache ∧
    (runLoop vc oc w files).trace = [] := by
  unfold runLoop
  obtain ⟨hok, hp, hv, hc, ht⟩ :=
    foldl_untouched vc oc w files ⟨w, [], [], [], true⟩ ⟨rfl, rfl, rfl, rfl, rfl⟩ h
  unfold finishRun
  have hcond : ¬ ((files.foldl (processStep vc oc) ⟨w, [], [], [], true⟩).ok = true ∧
      (files.foldl (processStep vc oc) ⟨w, [], [], [], true⟩).curPvs ≠ []) := by
    rintro ⟨_, hne⟩
    exact hne hv
  rw [if_neg hcond]
  exact ⟨hok, hc, ht⟩

/-! ### Monotonicity of the discovery data across runs -/

/-- The `existing_pt_files` set only grows as the cache grows. -/
lemma existingPt_mono (vc : VC) {w w' : World} (hg : cacheGrows w w') :
    ∀ x ∈ existingPtOf vc w, x ∈ existingPtOf vc w' := by
  intro x hx
  unfold existingPtOf collectExistingPt backendListFiles at hx ⊢
  rw [if_pos rfl] at hx ⊢
  simp only [List.flatMap_cons, List.flatMap_nil, List.append_nil, List.mem_map,
    List.mem_filter, List.mem_map, if_pos rfl] at hx ⊢
  obtain ⟨base, ⟨⟨kv, hkv, hbase⟩, hglob⟩, hxeq⟩ := hx
  have hk : kv.1 ∈ w'.cache.map Prod.fst :=
    hg kv.1 (List.mem_map_of_mem Prod.fst hkv)
  obtain ⟨kv', hkv', hkeq⟩ := List.mem_map.mp hk
  refine ⟨base, ⟨⟨kv', hkv', ?_⟩, hglob⟩, hxeq⟩
  rw [hkeq, hbase]

/-- Files found by the secondary scan after a run were already found by the
scan before it: the source walk only shrinks and `existing_pt_files` only
grows. -/
lemma scanAdditions_mono (vc : VC) {w w' : World} (d : String)
    (hd : ¬ d = vc.cache_dir) (hg : cacheGrows w w') (hs : walkShrinks w w') :
    ∀ f ∈ scanAdditions vc w' d, f ∈ scanAdditions vc w d := by
  intro f hf
  unfold scanAdditions backendListFiles at hf ⊢
  rw [if_neg hd] at hf ⊢
  simp only [List.mem_flatMap, List.mem_map, List.mem_filterMap] at hf ⊢
  obtain ⟨p, ⟨q', hq', hpq⟩, name, hname, hcond⟩ := hf
  subst hpq
  by_cases hin : (splitext name).1 ∈ existingPtOf vc w'
  · rw [if_pos hin] at hcond
    cases hcond
  · rw [if_neg hin] at hcond
    obtain ⟨q, hq, hq1, hq2⟩ := hs q' hq'
    have hname' : name ∈ q.2.filter (fun f => globMatch "*.[jJpP][pPnN][gG]" f) := by
      have hm := List.mem_filter.mp hname
      exact List.mem_filter.mpr ⟨hq2 name hm.1, hm.2⟩
    have hin' : (splitext name).1 ∉ existingPtOf vc w :=
      fun hmem => hin (existingPt_mono vc hg _ hmem)
    refine ⟨(q.1, q.2.filter (fun f => globMatch "*.[jJpP][pPnN][gG]" f)),
      ⟨q, hq, rfl⟩, name, hname', ?_⟩
    rw [if_neg hin']
    rw [← hcond, hq1]

/-- `split_cache_between_processes` always stores the empty partition,
because `discover_unprocessed_files` always returns the empty list. -/
lemma split_local_nil (vc : VC) (oc : Oracles) (w : World) :
    split_cache_between_processes vc oc w =
      { vc with local_unprocessed_files := [] } := by
  unfold split_cache_between_processes
  rw [discover_eq_nil]
  rw [List.subset_nil.mp (oc.splitOracle_sub [])]

lemma encode_image_of_batch_some {vc : VC} {oc : Oracles} {w : World}
    {pv : Int} {fp : String} {tr : List Event} {names : List String} {outs : List Int}
    (hE : encode_image_batch vc oc w [pv] [fp] = (tr, some (names, outs))) :
    encode_image vc oc w pv fp = (tr, outs[0]?) := by
  unfold encode_image
  rw [hE]

lemma encode_image_of_batch_none {vc : VC} {oc : Oracles} {w : World}
    {pv : Int} {fp : String} {tr : List Event}
    (hE : encode_image_batch vc oc w [pv] [fp] = (tr, none)) :
    encode_image vc oc w pv fp = (tr, none) := by
  unfold encode_image
  rw [hE]

/-! ### Concrete instances used to evaluate the model -/

/-- Deterministic collaborators: the Transform Engine is the identity on
batches, the scaling factor is 2, decoding yields tensor 1 except for the
corrupt item `data/bad.png`, shuffling and process-splitting are the
identity. -/
def idOracles : Oracles where
  vaeEncode := fun l => l
  vaeEncode_len := fun _ => rfl
  scaling_factor := 2
  decodeItem := fun s => if s = "data/bad.png" then none else some 1
  shuffle := fun l => l
  shuffle_perm := fun l => List.Perm.refl l
  splitOracle := fun l => l
  splitOracle_sub := fun l => List.Subset.refl l

/-- A cache object with the source defaults: cache directory `vae_cache`,
resolution 1024, deletions off, write batch size 25, empty partition. -/
def vcDefault : VC := ⟨"vae_cache", 1024, false, 25, []⟩

/-- One source image in a `data` subdirectory, empty cache. -/
def c1World : World := ⟨[("data", ["a.png"])], [], []⟩

/-- A source tree holding an upper-case `.JPG` file and a lower-case one. -/
def c7World : World := ⟨[("", ["photo.JPG", "photo2.png"])], [], []⟩

/-- A world whose cache already holds an entry for `x.png`. -/
def cachedWorld : World := ⟨[], [("vae_cache/x.pt", 7)], []⟩

/-! ### Claims -/

/-- C1: the claim states that `discover_unprocessed_files` returns exactly
the source items whose cache key has no existing cache entry.  In fact the
function compares each file's generated name pair against the set of
generated name pairs of the same files (it never consults the cache), so it
returns the empty list for every source directory and every cache state; in
particular a first run over a source tree containing `data/a.png` (which the
enumeration step does see) reports no unprocessed files. -/
theorem C1_discover_always_empty :
    (∀ (vc : VC) (w : World) (directory : String),
      discover_unprocessed_files vc w directory = []) ∧
    discoverAllFiles vcDefault c1World "data" = ["data/a.png"] ∧
    discover_unprocessed_files vcDefault c1World "data" = [] :=
  ⟨discover_eq_nil, by decide, by decide⟩

/-- C6: `_generate_filename` is deterministic, total and side-effect-free
(it is a pure function of the identity string), and it agrees everywhere
with the spec-worded resolver: strip the directory path and the extension,
append the fixed `.pt` suffix, and place the result directly under the
cache namespace root. -/
theorem C6_resolver_matches_spec (vc : VC) (fp : String) :
    _generate_filename vc fp = specResolve vc fp ∧
    (_generate_filename vc fp).1 = pathJoin vc.cache_dir (_generate_filename vc fp).2 := by
  constructor
  · have hb : basenameL fp.data = specBasenameL fp.data := basenameL_eq_spec fp.data
    have hsx : (splitextL (basenameL fp.data)).1 = specStripExtL (specBasenameL fp.data) := by
      rw [splitextL_fst_eq_spec (no_slash_basenameL fp.data), hb]
    show (pathJoin vc.cache_dir ((⟨(splitextL (basenameL fp.data)).1⟩ : String) ++ ".pt"),
          (⟨(splitextL (basenameL fp.data)).1⟩ : String) ++ ".pt") =
        (pathJoin vc.cache_dir ((⟨specStripExtL (specBasenameL fp.data)⟩ : String) ++ ".pt"),
          (⟨specStripExtL (specBasenameL fp.data)⟩ : String) ++ ".pt")
    rw [hsx]
  · rfl

/-- C7: the claim states that discovery accepts image extensions
case-insensitively.  The backend glob `*.[jJpP][pPnN][gG]` does match
`photo.JPG`, but the subsequent case-sensitive `endswith` filter drops it,
so the upper-case file is missing from the enumerated source items (and the
returned backlog is empty regardless). -/
theorem C7_uppercase_extension_excluded :
    globMatch "*.[jJpP][pPnN][gG]" "photo.JPG" = true ∧
    discoverAllFiles vcDefault c7World "data" = ["photo2.png"] ∧
    discover_unprocessed_files vcDefault c7World "data" = [] := by
  refine ⟨by decide, by decide, by decide⟩

/-- C9: the single-item encode is the batch path with a batch of one: it
produces the same Transform Engine trace, and whenever the batch call
returns, its embedding list has exactly one element and `encode_image`
returns that first element; a failing batch call propagates as a failure. -/
theorem C9_encode_image_is_batch_of_one (vc : VC) (oc : Oracles) (w : World)
    (pv : Int) (fp : String) :
    (encode_image vc oc w pv fp).1 = (encode_image_batch vc oc w [pv] [fp]).1 ∧
    (∀ names outs, (encode_image_batch vc oc w [pv] [fp]).2 = some (names, outs) →
      outs.length = 1 ∧ (encode_image vc oc w pv fp).2 = outs[0]?) ∧
    ((encode_image_batch vc oc w [pv] [fp]).2 = none →
      (encode_image vc oc w pv fp).2 = none) := by
  rcases hE : encode_image_batch vc oc w [pv] [fp] with ⟨tr, res⟩
  rcases res with _ | ⟨names, outs⟩
  · refine ⟨?_, ?_, ?_⟩
    · rw [encode_image_of_batch_none hE]
    · intro names' outs' h
      simp at h
    · intro _
      rw [encode_image_of_batch_none hE]
  · have hne : [pv] ≠ ([] : List Int) := by simp
    have hpair := hE
    unfold encode_image_batch at hpair
    rw [if_neg hne] at hpair
    have hEL : encodeLoop vc w [fp] 0
        ((oc.vaeEncode [pv]).map (fun v => v * oc.scaling_factor)) [] [] =
        some (names, outs) := by
      have := congrArg Prod.snd hpair
      simpa using this
    obtain ⟨hn, ho⟩ := encodeLoop_names vc w _ _ _ _ _ _ _ hEL
    refine ⟨?_, ?_, ?_⟩
    · rw [encode_image_of_batch_some hE]
    · intro names' outs' h
      simp only [Option.some.injEq, Prod.mk.injEq] at h
      refine ⟨?_, ?_⟩
      · rw [← h.2]
        simpa using ho
      · rw [encode_image_of_batch_some hE, ← h.2]
    · intro h
      simp at h

/-- C9 witness: batch-of-one on a concrete uncached item returns the
single embedding 5 * 2 = 10, and `encode_image` returns exactly that first
element. -/
theorem C9_witness :
    (encode_image_batch vcDefault idOracles cachedWorld [5] ["y.png"]).2 =
      some (["vae_cache/y.pt"], [10]) ∧
    (encode_image vcDefault idOracles cachedWorld 5 "y.png").2 = some 10 := by
  refine ⟨by decide, ?_⟩
  have h := (C9_encode_image_is_batch_of_one vcDefault idOracles cachedWorld
    5 "y.png").2.1 ["vae_cache/y.pt"] [10] (by decide)
  rw [h.2]
  rfl

/-- C10: `process_directory` mutates the stored partition in place:
afterwards `local_unprocessed_files` is exactly the shuffle of the previous
value with the secondary scan's not-yet-cached files appended (hence a
permutation of that append), and no other field of the cache object
changes. -/
theorem C10_partition_mutated_in_place (vc : VC) (oc : Oracles) (w : World)
    (d : String) :
    (process_directory vc oc w d).state.local_unprocessed_files =
      oc.shuffle (vc.local_unprocessed_files ++ scanAdditions vc w d) ∧
    ((process_directory vc oc w d).state.local_unprocessed_files).Perm
      (vc.local_unprocessed_files ++ scanAdditions vc w d) ∧
    (process_directory vc oc w d).state.cache_dir = vc.cache_dir ∧
    (process_directory vc oc w d).state.resolution = vc.resolution ∧
    (process_directory vc oc w d).state.delete_problematic_images =
      vc.delete_problematic_images ∧
    (process_directory vc oc w d).state.write_batch_size = vc.write_batch_size :=
  ⟨rfl, oc.shuffle_perm _, rfl, rfl, rfl, rfl⟩

/-- C3: an existing cache entry wins over the freshly computed transform
output: for any batch position whose cache entry exists, the returned
embedding equals the stored on-disk value, the call succeeds (no error),
and after the batch is persisted with `write_batch` the stored value at
that key is still the first writer's value. -/
theorem C3_existing_entry_wins (vc : VC) (oc : Oracles) (w : World)
    (pvs : List Int) (fps : List String) (i : Nat) (v0 : Int)
    (hne : pvs ≠ []) (hlen : fps.length ≤ pvs.length) (hi : i < fps.length)
    (hcached : storeGet w.cache (_generate_filename vc (fps.getD i "")).1 = some v0) :
    ∃ names outs,
      (encode_image_batch vc oc w pvs fps).2 = some (names, outs) ∧
      outs.getD i 0 = v0 ∧
      storeGet (writeBatch w names outs).cache
        (_generate_filename vc (fps.getD i "")).1 = some v0 := by
  rw [encode_image_batch_eq vc oc w pvs fps hne hlen]
  have hhas : storeHas w.cache (_generate_filename vc (fps.getD i "")).1 = true := by
    unfold storeHas
    rw [hcached]
    rfl
  refine ⟨_, _, rfl, ?_, ?_⟩
  · rw [getD_map_range _ hi]
    unfold encodeOut
    rw [if_pos hhas]
    unfold load_from_cache
    rw [hcached]
    rfl
  · apply storeGet_storePutAll_eq hcached
    intro q hq hq1
    obtain ⟨j, hj, hqe⟩ := List.mem_iff_getElem.mp hq
    have hj1 : j < fps.length := by simpa using hj
    rw [List.getElem_zip] at hqe
    subst hqe
    simp only [List.getElem_map, List.getElem_range] at hq1 ⊢
    unfold encodeOut
    have hfq : fps.getD j "" = fps[j] := by
      rw [List.getD_eq_getElem?_getD, List.getElem?_eq_getElem hj1]
      rfl
    rw [hfq, hq1, if_pos hhas]
    unfold load_from_cache
    rw [hcached]
    rfl

/-- C3 witness: a batch of one over a world whose cache already stores 7
for `x.png`; the returned and re-persisted value is 7, not the computed
5 * 2. -/
theorem C3_witness :
    ([5] : List Int) ≠ [] ∧
    storeGet cachedWorld.cache
      (_generate_filename vcDefault (["x.png"].getD 0 "")).1 = some 7 ∧
    ∃ names outs,
      (encode_image_batch vcDefault idOracles cachedWorld [5] ["x.png"]).2 =
        some (names, outs) ∧
      outs.getD 0 0 = 7 ∧
      storeGet (writeBatch cachedWorld names outs).cache
        (_generate_filename vcDefault (["x.png"].getD 0 "")).1 = some 7 :=
  ⟨by decide, by decide,
    C3_existing_entry_wins vcDefault idOracles cachedWorld [5] ["x.png"] 0 7
      (by decide) (by decide) (by decide) (by decide)⟩

/-- C8: for an item with no pre-existing cache entry, the embedding
produced by `encode_image_batch` equals the Transform Engine's output for
that item multiplied by the configured scaling factor, and the Transform
Engine is invoked exactly once, on the whole batch. -/
theorem C8_embedding_is_scaled_output (vc : VC) (oc : Oracles) (w : World)
    (pvs : List Int) (fps : List String) (i : Nat)
    (hne : pvs ≠ []) (hlen : fps.length ≤ pvs.length) (hi : i < fps.length)
    (hnc : storeHas w.cache (_generate_filename vc (fps.getD i "")).1 = false) :
    ∃ names outs,
      encode_image_batch vc oc w pvs fps =
        ([Event.transformCall pvs], some (names, outs)) ∧
      outs.getD i 0 = (oc.vaeEncode pvs).getD i 0 * oc.scaling_factor := by
  rw [encode_image_batch_eq vc oc w pvs fps hne hlen]
  refine ⟨_, _, rfl, ?_⟩
  rw [getD_map_range _ hi]
  unfold encodeOut
  rw [hnc, if_neg (by simp)]
  have hi' : i < (oc.vaeEncode pvs).length := by
    rw [oc.vaeEncode_len]
    omega
  rw [Nat.zero_add]
  rw [List.getD_eq_getElem?_getD, List.getElem?_map,
    List.getElem?_eq_getElem hi', List.getD_eq_getElem?_getD,
    List.getElem?_eq_getElem hi']
  rfl

/-- C8 witness: an uncached item with pixel tensor 5 yields the embedding
5 * 2 = 10, with a single transform call on the whole batch. -/
theorem C8_witness :
    ([5] : List Int) ≠ [] ∧
    storeHas cachedWorld.cache
      (_generate_filename vcDefault (["y.png"].getD 0 "")).1 = false ∧
    ∃ names outs,
      encode_image_batch vcDefault idOracles cachedWorld [5] ["y.png"] =
        ([Event.transformCall [5]], some (names, outs)) ∧
      outs.getD 0 0 = (idOracles.vaeEncode [5]).getD 0 0 * idOracles.scaling_factor :=
  ⟨by decide, by decide,
    C8_embedding_is_scaled_output vcDefault idOracles cachedWorld [5] ["y.png"] 0
      (by decide) (by decide) (by decide) (by decide)⟩

/-- C5: a decode/normalize failure never propagates and never aborts the
run: the failing item is neither batched nor encoded, the step leaves the
loop in a normal (non-error) state with the cache untouched, the source
item is deleted exactly when the delete flag is set, and processing
continues with the remaining items. -/
theorem C5_decode_failure_isolated (vc : VC) (oc : Oracles) (s : LoopSt)
    (fp : String) (rest : List String)
    (hok : s.ok = true)
    (hnc : storeHas s.world.cache (_generate_filename vc fp).1 = false)
    (hfail : oc.decodeItem fp = none) :
    processStep vc oc s fp =
      { s with world :=
          if vc.delete_problematic_images then worldDelete s.world fp
          else s.world } ∧
    (processStep vc oc s fp).ok = true ∧
    (processStep vc oc s fp).curPaths = s.curPaths ∧
    (processStep vc oc s fp).curPvs = s.curPvs ∧
    (processStep vc oc s fp).world.cache = s.world.cache ∧
    (vc.delete_problematic_images = true →
      (processStep vc oc s fp).world.deleted = s.world.deleted ++ [fp]) ∧
    (vc.delete_problematic_images = false →
      (processStep vc oc s fp).world = s.world) ∧
    List.foldl (processStep vc oc) s (fp :: rest) =
      List.foldl (processStep vc oc) (processStep vc oc s fp) rest := by
  have hstep : processStep vc oc s fp =
      { s with world :=
          if vc.delete_problematic_images then worldDelete s.world fp
          else s.world } := by
    unfold processStep
    rw [if_pos hok, if_neg (by rw [hnc]; simp), hfail]
  refine ⟨hstep, ?_, ?_, ?_, ?_, ?_, ?_, rfl⟩
  · rw [hstep]
    exact hok
  · rw [hstep]
  · rw [hstep]
  · rw [hstep]
    exact cache_ifDelete s.world _ fp
  · intro hflag
    rw [hstep]
    simp [hflag, worldDelete]
  · intro hflag
    rw [hstep]
    simp [hflag]

/-- C5 witness: the corrupt item `data/bad.png` under a delete-enabled
configuration is skipped, the run stays healthy, and the item is deleted. -/
theorem C5_witness :
    (⟨⟨[("data", ["bad.png"])], [], []⟩, [], [], [], true⟩ : LoopSt).ok = true ∧
    storeHas (⟨⟨[("data", ["bad.png"])], [], []⟩, [], [], [], true⟩ : LoopSt).world.cache
      (_generate_filename ⟨"vae_cache", 1024, true, 25, []⟩ "data/bad.png").1 = false ∧
    idOracles.decodeItem "data/bad.png" = none ∧
    (processStep ⟨"vae_cache", 1024, true, 25, []⟩ idOracles
        (⟨⟨[("data", ["bad.png"])], [], []⟩, [], [], [], true⟩ : LoopSt)
        "data/bad.png").ok = true ∧
    (processStep ⟨"vae_cache", 1024, true, 25, []⟩ idOracles
        (⟨⟨[("data", ["bad.png"])], [], []⟩, [], [], [], true⟩ : LoopSt)
        "data/bad.png").world.deleted = ["data/bad.png"] := by
  have h := C5_decode_failure_isolated ⟨"vae_cache", 1024, true, 25, []⟩ idOracles
    (⟨⟨[("data", ["bad.png"])], [], []⟩, [], [], [], true⟩ : LoopSt)
    "data/bad.png" [] (by decide) (by decide) (by decide)
  refine ⟨by decide, by decide, by decide, h.2.1, ?_⟩
  have hdel := h.2.2.2.2.2.1 (by decide)
  rw [hdel]
  rfl

/-- A backlog of 53 decodable source images at the top of the source root. -/
def c2Files : List String := (List.range 53).map (fun n => "img" ++ toString n ++ ".png")

def c2World : World := ⟨[("", c2Files)], [], []⟩

set_option maxRecDepth 100000 in
/-- C2: the claim expects ceil(53/25) = 3 flushes of sizes 25, 25, 3, each
keyed by the filepaths of its own batch, and 53 persisted entries.  In the
code the final partial flush passes `files_to_process` — the whole 53-item
worklist — to `encode_image_batch` together with only 3 pixel tensors, so
the per-file loop indexes past the 3 latents and raises, after two flushes
of 25: the run aborts with 2 flushes, 3 transform calls and 50 persisted
entries. -/
theorem C2_final_flush_miskeyed :
    (process_directory vcDefault idOracles c2World "data").ok = false ∧
    flushSizes (process_directory vcDefault idOracles c2World "data").trace = [25, 25] ∧
    countTransform (process_directory vcDefault idOracles c2World "data").trace = 3 ∧
    (process_directory vcDefault idOracles c2World "data").world.cache.length = 50 := by
  refine ⟨by decide, by decide, by decide, by decide⟩

/-- Re-running `process_directory` (with its always-empty stored partition)
over the backend state a successful run left behind does nothing: the
worklist the secondary scan rebuilds consists only of items that are now
cached or that still fail to decode, so the per-item existence check (or
the failure policy) skips everything before any decode or encode. -/
lemma second_run_trivial (vc : VC) (oc : Oracles) (w : World) (d : String)
    (hd : ¬ d = vc.cache_dir)
    (hloc : vc.local_unprocessed_files = [])
    (hok : (process_directory vc oc w d).ok = true) :
    (process_directory vc oc (process_directory vc oc w d).world d).ok = true ∧
    (process_directory vc oc (process_directory vc oc w d).world d).world.cache =
      (process_directory vc oc w d).world.cache ∧
    (process_directory vc oc (process_directory vc oc w d).world d).trace = [] := by
  obtain ⟨hg, hsk⟩ := runLoop_world vc oc w (processFiles vc oc w d)
  have hok1 : (runLoop vc oc w (processFiles vc oc w d)).ok = true := hok
  have hcov := run_covers vc oc w (processFiles vc oc w d) hok1
  have hall : ∀ fp ∈ processFiles vc oc (process_directory vc oc w d).world d,
      storeHas (process_directory vc oc w d).world.cache
        (_generate_filename vc fp).1 = true ∨ oc.decodeItem fp = none := by
    intro fp hfp
    have h2 : fp ∈ scanAdditions vc (process_directory vc oc w d).world d := by
      have hperm := oc.shuffle_perm
        (vc.local_unprocessed_files ++
          scanAdditions vc (process_directory vc oc w d).world d)
      have hm := hperm.mem_iff.mp hfp
      rw [hloc, List.nil_append] at hm
      exact hm
    have h1 : fp ∈ scanAdditions vc w d :=
      scanAdditions_mono vc d hd hg hsk fp h2
    have hmem1 : fp ∈ processFiles vc oc w d := by
      have hperm := oc.shuffle_perm
        (vc.local_unprocessed_files ++ scanAdditions vc w d)
      exact hperm.mem_iff.mpr (List.mem_append_right _ h1)
    exact hcov fp hmem1
  exact run_untouched vc oc (process_directory vc oc w d).world
    (processFiles vc oc (process_directory vc oc w d).world d) hall

/-- C4: running the pipeline to completion twice over an unchanged source
root is idempotent: given that the first run returned normally, the second
run also returns normally, leaves the set of cache entries exactly as the
first run left it, performs zero Transform Engine invocations, and in fact
produces no effect trace at all — every item it reconsiders is skipped at
the per-item existence check (or by the failure policy) before any decode
or encode. -/
theorem C4_second_run_idempotent (vc : VC) (oc : Oracles) (w : World) (d : String)
    (hd : ¬ d = vc.cache_dir)
    (hok : (runToCompletion vc oc w d).ok = true) :
    (runToCompletion (runToCompletion vc oc w d).state oc
        (runToCompletion vc oc w d).world d).ok = true ∧
    (runToCompletion (runToCompletion vc oc w d).state oc
        (runToCompletion vc oc w d).world d).world.cache =
      (runToCompletion vc oc w d).world.cache ∧
    countTransform (runToCompletion (runToCompletion vc oc w d).state oc
        (runToCompletion vc oc w d).world d).trace = 0 ∧
    (runToCompletion (runToCompletion vc oc w d).state oc
        (runToCompletion vc oc w d).world d).trace = [] := by
  unfold runToCompletion at hok ⊢
  rw [split_local_nil vc oc w] at hok ⊢
  rw [split_local_nil ((process_directory
      { vc with local_unprocessed_files := [] } oc w d).state) oc
    ((process_directory { vc with local_unprocessed_files := [] } oc w d).world)]
  have hstate : ({ (process_directory { vc with local_unprocessed_files := [] }
      oc w d).state with local_unprocessed_files := ([] : List String) } : VC) =
      { vc with local_unprocessed_files := [] } := rfl
  rw [hstate]
  obtain ⟨h1, h2, h3⟩ := second_run_trivial
    { vc with local_unprocessed_files := [] } oc w d hd rfl hok
  exact ⟨h1, h2, by rw [h3]; rfl, h3⟩

/-- A two-image source tree over which a full run completes successfully. -/
def c4World : World := ⟨[("", ["a.png", "b.png"])], [], []⟩

/-- C4 witness: over a concrete two-image source root the first run
completes, and the theorem yields that the second run is effect-free with
the cache unchanged. -/
theorem C4_witness :
    ¬ "data" = vcDefault.cache_dir ∧
    (runToCompletion vcDefault idOracles c4World "data").ok = true ∧
    (runToCompletion (runToCompletion vcDefault idOracles c4World "data").state
        idOracles (runToCompletion vcDefault idOracles c4World "data").world
        "data").ok = true ∧
    countTransform (runToCompletion
        (runToCompletion vcDefault idOracles c4World "data").state idOracles
        (runToCompletion vcDefault idOracles c4World "data").world "data").trace = 0 :=
  ⟨by decide, by decide,
    (C4_second_run_idempotent vcDefault idOracles c4World "data"
      (by decide) (by decide)).1,
    (C4_second_run_idempotent vcDefault idOracles c4World "data"
      (by decide) (by decide)).2.2.1⟩

end VAECacheModel
